import Mathlib

/-!
Verification of the cerbero-go file-sharing daemon (src/main.go, which holds
two variants of the program: the "v1.1" handlers and the "v1.0" handlers).
The secure file-access layer is shallowly embedded here: path resolution
(securePath, built on Go's filepath.Clean / filepath.Join / strings.HasPrefix),
the per-client rate governor (isRateLimited), the password gate
(checkPassword), the upload/delete handler control flow, and the file listing
(renderIndex with humanSize).  Loops from the Go source are embedded as
structural recursions over an explicit fuel argument that is always called
with a bound that the loop can never exceed (each loop iteration consumes at
least one input element), so the fueled function agrees exactly with the
source loop.
-/

namespace Cerbero

/-! ### Go path/filepath.Clean (unix), embedded over lists of characters -/

/-- Character test mirroring `!os.IsPathSeparator(c)` on unix. -/
def notSep (c : Char) : Bool := c != '/'

/-- Test used for the lookahead `r+1 == n || os.IsPathSeparator(path[r+1])`
in Clean: the remaining input is at the end of a path element. -/
def atSegEnd : List Char → Bool
  | [] => true
  | c :: _ => c == '/'

/-- Inner loop of Clean's `..` backtracking:
`for out.w > dotdot && !os.IsPathSeparator(out.index(out.w)) { out.w-- }`.
The argument is the current value of `out.w` (after the initial `out.w--`),
and the result is its final value. -/
def popLoop (o : List Char) (dotdot : Nat) : Nat → Nat
  | 0 => 0
  | w + 1 =>
    if dotdot < w + 1 ∧ notSep (o.getD (w + 1) 'a') then popLoop o dotdot w
    else w + 1

/-- The whole `..` backtracking step of Clean: `out.w--` followed by the
`popLoop` scan, realised as truncation of the output buffer. -/
def backtrack (o : List Char) (dotdot : Nat) : List Char :=
  o.take (popLoop o dotdot (o.length - 1))

/-- Main loop of Go `filepath.Clean` (unix separators, volume length 0).
`out` is the written part of the lazybuf, `dotdot` the guard index, `rooted`
whether the original path began with a separator.  The fuel is consumed once
per loop iteration; every iteration consumes at least one input character, so
calling with fuel = input length reproduces the Go loop exactly. -/
def cleanLoop : Nat → List Char → List Char → Nat → Bool → List Char
  | 0, _, out, _, _ => out
  | _ + 1, [], out, _, _ => out
  | fuel + 1, c :: rest, out, dotdot, rooted =>
    if c = '/' then
      cleanLoop fuel rest out dotdot rooted
    else if c = '.' ∧ atSegEnd rest then
      cleanLoop fuel rest out dotdot rooted
    else if c = '.' ∧ rest.head? = some '.' ∧ atSegEnd rest.tail then
      (if dotdot < out.length then
        cleanLoop fuel rest.tail (backtrack out dotdot) dotdot rooted
      else if !rooted then
        let out2 := (if 0 < out.length then out ++ ['/'] else out) ++ ['.', '.']
        cleanLoop fuel rest.tail out2 out2.length rooted
      else
        cleanLoop fuel rest.tail out dotdot rooted)
    else
      let out2 := (if (rooted ∧ out.length ≠ 1) ∨ (¬rooted ∧ out.length ≠ 0)
                   then out ++ ['/'] else out) ++ c :: rest.takeWhile notSep
      cleanLoop fuel (rest.dropWhile notSep) out2 dotdot rooted

/-- Go `filepath.Clean` on the character list of a path.  An empty path gives
".", a rooted path starts the lazybuf with "/" and reading position 1
(`r, dotdot = 1, 1`), and an empty output gives ".". -/
def cleanChars (cs : List Char) : List Char :=
  match cs with
  | [] => ['.']
  | c :: rest =>
    let out := if c = '/' then cleanLoop rest.length rest ['/'] 1 true
               else cleanLoop (c :: rest).length (c :: rest) [] 0 false
    if out = [] then ['.'] else out

/-- Go `filepath.Clean` on strings. -/
def clean (s : String) : String := String.mk (cleanChars s.data)

/-- Go `filepath.Join(a, b)`: skip leading empty elements, then Clean the
separator-joined remainder. -/
def join2 (a b : String) : String :=
  if a ≠ "" then clean (a ++ "/" ++ b)
  else if b ≠ "" then clean b
  else ""

/-- Go `strings.HasPrefix(s, p)` over character lists. -/
def hasPrefixCs : List Char → List Char → Bool
  | _, [] => true
  | [], _ :: _ => false
  | c :: s, p :: ps => c == p && hasPrefixCs s ps

/-- Go `strings.HasPrefix` on strings. -/
def hasPrefixStr (s p : String) : Bool := hasPrefixCs s.data p.data

/-- securePath from src/main.go (identical in both program variants up to the
error message):
`absRoot, _ := filepath.Abs(rootDir)` — main has already replaced rootDir by
an absolute path at startup, and Go's Abs returns `Clean(path)` for an
absolute argument, so Abs is modelled as clean (all theorems assume the root
is absolute, as main guarantees);
`targetPath := filepath.Join(absRoot, filepath.Clean("/"+requestedPath))`;
deny unless `strings.HasPrefix(targetPath, absRoot)`. -/
def securePath (rootDir requestedPath : String) : Except String String :=
  let absRoot := clean rootDir
  let targetPath := join2 absRoot (clean ("/" ++ requestedPath))
  if hasPrefixStr targetPath absRoot then Except.ok targetPath
  else Except.error "acceso denegado"

/-! ### RateGovernor: isRateLimited -/

/-- The fixed minimum interval between admitted requests:
`1*time.Second`, in nanoseconds. -/
def rateInterval : Int := 1000000000

/-- Go map lookup, on the association-list model of `tracker.lastAccess`. -/
def mapGet : List (String × Int) → String → Option Int
  | [], _ => none
  | (k2, v) :: rest, k => if k2 = k then some v else mapGet rest k

/-- Go map assignment `tracker.lastAccess[ip] = t`, on the model. -/
def mapSet : List (String × Int) → String → Int → List (String × Int)
  | [], k, v => [(k, v)]
  | (k2, v2) :: rest, k, v =>
    if k2 = k then (k, v) :: rest else (k2, v2) :: mapSet rest k v

/-- isRateLimited from src/main.go (identical in both variants).  The mutex
makes the whole read-check-write atomic, so a call is one transition of the
map; `now` is the instant of the call (`time.Since(last)` is now - last, and
the stored timestamp is now).  Returns (limited?, updated map): the map is
updated only when the request is admitted. -/
def isRateLimited (now : Int) (m : List (String × Int)) (ip : String) :
    Bool × List (String × Int) :=
  match mapGet m ip with
  | some last =>
    if now - last < rateInterval then (true, m) else (false, mapSet m ip now)
  | none => (false, mapSet m ip now)

/-- State of the tracker map after a sequence of calls from client ip at the
given instants. -/
def attemptAll (ts : List Int) (m : List (String × Int)) (ip : String) :
    List (String × Int) :=
  ts.foldl (fun s t => (isRateLimited t s ip).2) m

/-! ### AccessGate: checkPassword -/

/-- checkPassword from src/main.go: open mode when no password is configured,
otherwise `subtle.ConstantTimeCompare` of the supplied form value against the
configured password, which returns 1 exactly when the byte strings are
equal. -/
def checkPassword (configured supplied : String) : Bool :=
  if configured = "" then true else supplied = configured

/-! ### Upload pipeline: handler traces and responses -/

/-- The actions an upload handler can perform.  `formValueParse` is the
implicit multipart parse performed by `r.FormValue` inside checkPassword when
the form has not been parsed yet (net/http behaviour), before any byte
ceiling is installed. -/
inductive UStep
  | rateCheck | methodCheck | formValueParse | bodyLimit | parseMultipart
  | passwordCheck | formFile | resolvePath | createDest | diskWrite
deriving DecidableEq

/-- Sequence of actions of the v1.1 uploadHandler, one flag per fallible
step: rate check; install MaxBytesReader; ParseMultipartForm; checkPassword;
FormFile; securePath; os.Create; io.Copy. -/
def uploadTraceV11 (rl parseOk pwOk fileOk createOk : Bool) : List UStep :=
  UStep.rateCheck :: if rl then [] else
  UStep.bodyLimit :: UStep.parseMultipart :: if !parseOk then [] else
  UStep.passwordCheck :: if !pwOk then [] else
  UStep.formFile :: if !fileOk then [] else
  UStep.resolvePath :: UStep.createDest :: if !createOk then [] else
  [UStep.diskWrite]

/-- Sequence of actions of the v1.0 uploadHandler: rate check; method check;
checkPassword (whose `r.FormValue` first parses the multipart body with no
ceiling, unless no password is configured); only then MaxBytesReader;
FormFile; securePath; os.Create (error ignored in this variant); io.Copy. -/
def uploadTraceV10 (rl isPost pwConfigured pwOk fileOk : Bool) : List UStep :=
  UStep.rateCheck :: if rl then [] else
  UStep.methodCheck :: if !isPost then [] else
  (if pwConfigured then [UStep.formValueParse] else []) ++
  UStep.passwordCheck :: if !pwOk then [] else
  UStep.bodyLimit :: UStep.formFile :: if !fileOk then [] else
  [UStep.resolvePath, UStep.createDest, UStep.diskWrite]

/-- Outcomes of the v1.1 uploadHandler. -/
inductive UResp
  | tooMany | badUpload | unauthorized | noFile | diskErr | seeOther
deriving DecidableEq

/-- HTTP status written for each outcome by the v1.1 uploadHandler
(303 is the success redirect). -/
def statusCode : UResp → Nat
  | UResp.tooMany => 429
  | UResp.badUpload => 400
  | UResp.unauthorized => 401
  | UResp.noFile => 400
  | UResp.diskErr => 500
  | UResp.seeOther => 303

/-- Response of the v1.1 uploadHandler, together with whether anything was
written at the destination path.  ParseMultipartForm fails exactly when the
MaxBytesReader ceiling `int64(maxUploadMB)<<20` (= maxUploadMB * 1048576
bytes) is exceeded, or the multipart body is malformed. -/
def uploadRespV11 (maxUploadMB bodySize : Nat)
    (rl malformed pwOk fileOk createOk : Bool) : UResp × Bool :=
  if rl then (UResp.tooMany, false)
  else if maxUploadMB * 1048576 < bodySize ∨ malformed = true then (UResp.badUpload, false)
  else if !pwOk then (UResp.unauthorized, false)
  else if !fileOk then (UResp.noFile, false)
  else if !createOk then (UResp.diskErr, false)
  else (UResp.seeOther, true)

/-! ### Delete handlers -/

/-- Responses a delete handler can produce (`forbidden` appears only in the
specification, never in the code, and is listed so the claim about it can be
stated). -/
inductive DeleteResp
  | redirect | unauthorized | emptyOk | forbidden
deriving DecidableEq

/-- os.Remove on a filesystem modelled as the list of present paths. -/
def removeFile (p : String) (fs : List String) : List String :=
  fs.filter (fun q => !(q = p))

/-- The v1.1 delete handler (closure registered in main): when the delete
feature is enabled and the password matches, remove the resolved path if
securePath accepts; always redirect to "/". -/
def deleteV11 (configuredPw rootDir : String) (enableDelete : Bool)
    (suppliedPw reqPath : String) (fs : List String) : DeleteResp × List String :=
  if enableDelete ∧ checkPassword configuredPw suppliedPw then
    match securePath rootDir reqPath with
    | Except.ok p => (DeleteResp.redirect, removeFile p fs)
    | Except.error _ => (DeleteResp.redirect, fs)
  else (DeleteResp.redirect, fs)

/-- The v1.0 deleteHandler: plain `return` (an empty 200 response) when the
feature is disabled; 401 on a bad password; otherwise remove when securePath
accepts, and redirect. -/
def deleteV10 (configuredPw rootDir : String) (enableDelete : Bool)
    (suppliedPw reqPath : String) (fs : List String) : DeleteResp × List String :=
  if !enableDelete then (DeleteResp.emptyOk, fs)
  else if !(checkPassword configuredPw suppliedPw) then (DeleteResp.unauthorized, fs)
  else
    match securePath rootDir reqPath with
    | Except.ok p => (DeleteResp.redirect, removeFile p fs)
    | Except.error _ => (DeleteResp.redirect, fs)

/-! ### FileCatalog: humanSize and renderIndex -/

/-- The unit suffixes of humanSize; note there is no "TB" entry. -/
def sizesList : List String := ["B", "KB", "MB", "GB"]

/-- Loop of humanSize: `for f >= 1024 && i < len(sizes)-1 { f /= 1024; i++ }`.
The float64 state is modelled exactly in ℚ: dividing by 1024 only shifts the
binary exponent, and a comparison of n / 1024^i (n an int64) against the
power of two 1024 can never be flipped by float64 rounding.  The index is
bounded by len(sizes)-1 = 3, so fuel 3 reproduces the loop exactly. -/
def humanLoop : Nat → ℚ → Nat → ℚ × Nat
  | 0, f, i => (f, i)
  | fuel + 1, f, i =>
    if 1024 ≤ f ∧ i < 3 then humanLoop fuel (f / 1024) (i + 1) else (f, i)

/-- Round to the nearest integer, ties to even: the rounding that Go's %.1f
formatting applies to the (here exactly represented) value scaled by 10. -/
def roundHalfEven (q : ℚ) : Int :=
  if q - q.floor < 1/2 then q.floor
  else if 1/2 < q - q.floor then q.floor + 1
  else if q.floor % 2 = 0 then q.floor else q.floor + 1

/-- `fmt.Sprintf("%.1f", f)` for the nonnegative values produced here. -/
def fmtOneDec (q : ℚ) : String :=
  toString (roundHalfEven (q * 10) / 10) ++ "." ++ toString (roundHalfEven (q * 10) % 10).natAbs

/-- humanSize from src/main.go (identical in both variants). -/
def humanSize (n : Int) : String :=
  fmtOneDec (humanLoop 3 (n : ℚ) 0).1 ++ " " ++ sizesList.getD (humanLoop 3 (n : ℚ) 0).2 ""

/-- A directory entry as seen by renderIndex (os.ReadDir plus entry.Info). -/
structure DirEntry where
  name : String
  size : Int
  modTime : Int
  isDir : Bool

/-- The FileInfo record built by renderIndex. -/
structure FileInfo where
  name : String
  relPath : String
  humanSize : String
  size : Int
  modTime : Int

/-- The FileInfo renderIndex builds for a non-directory entry: RelPath is the
bare entry name. -/
def entryToFileInfo (e : DirEntry) : FileInfo :=
  ⟨e.name, e.name, humanSize e.size, e.size, e.modTime⟩

/-- The sort.Slice comparator: `files[i].ModTime.After(files[j].ModTime)`. -/
def modAfter (a b : FileInfo) : Bool := decide (b.modTime < a.modTime)

/-- Insertion step of an insertion sort driven by the modAfter comparator.
sort.Slice guarantees only that the result is a permutation ordered by the
comparator (stability is neither guaranteed nor relied on), which this
insertion sort realises. -/
def insertByMod (x : FileInfo) : List FileInfo → List FileInfo
  | [] => [x]
  | y :: ys => if modAfter y x then y :: insertByMod x ys else x :: y :: ys

/-- sort.Slice with the modAfter comparator. -/
def sortByMod (l : List FileInfo) : List FileInfo := l.foldr insertByMod []

/-- renderIndex from src/main.go, data part: skip subdirectories, map each
remaining entry to a FileInfo, sort most-recent-first. -/
def renderIndex (entries : List DirEntry) : List FileInfo :=
  sortByMod ((entries.filter (fun e => !e.isDir)).map entryToFileInfo)

/-! ### Segment-level view of Clean on rooted paths

A rooted cleaned path is "/" followed by separator-joined path elements that
are nonempty, separator-free, and different from "." and "..".  `segProcess`
mirrors `cleanLoop` case by case but keeps the output as a list of such
elements instead of a flat character buffer; it is the induction vehicle for
the theorems about `securePath`. -/

/-- A path element that the rooted Clean loop can emit. -/
def goodSeg (s : List Char) : Prop :=
  s ≠ [] ∧ (∀ c ∈ s, notSep c = true) ∧ s ≠ ['.'] ∧ s ≠ ['.', '.']

/-- All elements of a segment stack are emittable path elements. -/
def allGood (segs : List (List Char)) : Prop := ∀ s ∈ segs, goodSeg s

/-- Join segments with "/" (no leading or trailing separator). -/
def renderSegs : List (List Char) → List Char
  | [] => []
  | [s] => s
  | s :: rest => s ++ '/' :: renderSegs rest

/-- Segment-level mirror of `cleanLoop` for rooted paths: same case analysis
on the input, same fuel discipline, but the output is the stack of path
elements written so far ("" and "." elements are skipped, ".." pops the
stack, which for a rooted path never underflows past the root). -/
def segProcess : Nat → List (List Char) → List Char → List (List Char)
  | 0, segs, _ => segs
  | _ + 1, segs, [] => segs
  | fuel + 1, segs, c :: rest =>
    if c = '/' then segProcess fuel segs rest
    else if c = '.' ∧ atSegEnd rest then segProcess fuel segs rest
    else if c = '.' ∧ rest.head? = some '.' ∧ atSegEnd rest.tail then
      segProcess fuel segs.dropLast rest.tail
    else segProcess fuel (segs ++ [c :: rest.takeWhile notSep]) (rest.dropWhile notSep)

/-- `segProcess` with exactly enough fuel to consume its input. -/
def segRun (segs : List (List Char)) (inp : List Char) : List (List Char) :=
  segProcess inp.length segs inp

theorem lengthDropWhileLe (p : α → Bool) (l : List α) :
    (l.dropWhile p).length ≤ l.length := by
  induction l with
  | nil => simp
  | cons a l ih =>
    by_cases h : p a
    · rw [List.dropWhile_cons_of_pos h]; exact Nat.le_succ_of_le ih
    · rw [List.dropWhile_cons_of_neg h]

theorem takeWhileAllSep (x y : List Char) (hx : ∀ c ∈ x, notSep c = true) :
    (x ++ '/' :: y).takeWhile notSep = x := by
  induction x with
  | nil => simp [List.takeWhile_cons, notSep]
  | cons a x ih =>
    have ha := hx a (List.mem_cons_self a x)
    simp only [List.cons_append, List.takeWhile_cons, ha, if_true]
    rw [ih fun c hc => hx c (List.mem_cons_of_mem a hc)]

theorem dropWhileAllSep (x y : List Char) (hx : ∀ c ∈ x, notSep c = true) :
    (x ++ '/' :: y).dropWhile notSep = '/' :: y := by
  induction x with
  | nil => simp [List.dropWhile_cons, notSep]
  | cons a x ih =>
    have ha := hx a (List.mem_cons_self a x)
    simp only [List.cons_append, List.dropWhile_cons, ha, if_true]
    exact ih fun c hc => hx c (List.mem_cons_of_mem a hc)

theorem takeWhileAllEnd (x : List Char) (hx : ∀ c ∈ x, notSep c = true) :
    x.takeWhile notSep = x := by
  induction x with
  | nil => simp
  | cons a x ih =>
    have ha := hx a (List.mem_cons_self a x)
    simp only [List.takeWhile_cons, ha, if_true]
    rw [ih fun c hc => hx c (List.mem_cons_of_mem a hc)]

theorem dropWhileAllEnd (x : List Char) (hx : ∀ c ∈ x, notSep c = true) :
    x.dropWhile notSep = [] := by
  induction x with
  | nil => simp
  | cons a x ih =>
    have ha := hx a (List.mem_cons_self a x)
    simp only [List.dropWhile_cons, ha, if_true]
    exact ih fun c hc => hx c (List.mem_cons_of_mem a hc)

theorem atSegEndOfTakeWhileNil (rest : List Char) (h : rest.takeWhile notSep = []) :
    atSegEnd rest = true := by
  cases rest with
  | nil => rfl
  | cons d t =>
    simp only [List.takeWhile_cons] at h
    by_cases hd : notSep d
    · simp [hd] at h
    · simp only [notSep, bne_iff_ne, ne_eq, not_not] at hd
      simp [atSegEnd, hd]

theorem takeWhileSingleDot (rest : List Char) (h : rest.takeWhile notSep = ['.']) :
    rest.head? = some '.' ∧ atSegEnd rest.tail = true := by
  cases rest with
  | nil => simp at h
  | cons d t =>
    simp only [List.takeWhile_cons] at h
    by_cases hd : notSep d
    · simp only [hd, if_true, List.cons.injEq] at h
      exact ⟨by simp [h.1], atSegEndOfTakeWhileNil t h.2⟩
    · simp [hd] at h

theorem goodSegOfGuards (c : Char) (rest : List Char)
    (h1 : ¬ c = '/')
    (h2 : ¬ (c = '.' ∧ atSegEnd rest))
    (h3 : ¬ (c = '.' ∧ rest.head? = some '.' ∧ atSegEnd rest.tail)) :
    goodSeg (c :: rest.takeWhile notSep) := by
  refine ⟨by simp, ?_, ?_, ?_⟩
  · intro d hd
    rcases List.mem_cons.mp hd with h | h
    · subst h; simp [notSep, bne_iff_ne]; exact h1
    · exact List.mem_takeWhile_imp h
  · intro he
    rw [List.cons.injEq] at he
    exact h2 ⟨he.1, atSegEndOfTakeWhileNil rest he.2⟩
  · intro he
    rw [show ['.', '.'] = '.' :: ['.'] from rfl, List.cons.injEq] at he
    have hd := takeWhileSingleDot rest he.2
    exact h3 ⟨he.1, hd.1, hd.2⟩

theorem renderSegsNeNil (s : List Char) (segs : List (List Char)) (hs : s ≠ []) :
    renderSegs (s :: segs) ≠ [] := by
  cases segs with
  | nil => exact hs
  | cons a t => simp [renderSegs]

theorem renderSegsEqNilIff (segs : List (List Char)) (h : allGood segs) :
    renderSegs segs = [] ↔ segs = [] := by
  cases segs with
  | nil => simp [renderSegs]
  | cons s t =>
    have hs := (h s (List.mem_cons_self s t)).1
    simp only [iff_false, ne_eq, reduceCtorEq, iff_false]
    exact fun hh => renderSegsNeNil s t hs hh

theorem renderSegsAppend (R Q : List (List Char)) (hR : R ≠ []) (hQ : Q ≠ []) :
    renderSegs (R ++ Q) = renderSegs R ++ '/' :: renderSegs Q := by
  induction R with
  | nil => exact absurd rfl hR
  | cons a R2 ih =>
    cases R2 with
    | nil =>
      cases Q with
      | nil => exact absurd rfl hQ
      | cons q Q2 => simp [renderSegs]
    | cons b R3 =>
      have hR2 : b :: R3 ≠ [] := by simp
      have : (b :: R3) ++ Q ≠ [] := by simp
      obtain ⟨x, xs, hx⟩ : ∃ x xs, (b :: R3) ++ Q = x :: xs := ⟨b, R3 ++ Q, rfl⟩
      calc renderSegs ((a :: b :: R3) ++ Q)
      _ = a ++ '/' :: renderSegs ((b :: R3) ++ Q) := by
        rw [List.cons_append, hx]; rfl
      _ = a ++ '/' :: (renderSegs (b :: R3) ++ '/' :: renderSegs Q) := by
        rw [ih hR2]
      _ = renderSegs (a :: b :: R3) ++ '/' :: renderSegs Q := by
        simp [renderSegs]

theorem renderSegsAppendSingle (segs : List (List Char)) (s : List Char) (h : segs ≠ []) :
    renderSegs (segs ++ [s]) = renderSegs segs ++ '/' :: s :=
  renderSegsAppend segs [s] h (by simp)

theorem popLoopAllHigh (o : List Char) (d : Nat) :
    ∀ w, d ≤ w → (∀ j, d < j → j ≤ w → notSep (o.getD j 'a') = true) →
    popLoop o d w = d := by
  intro w
  induction w with
  | zero => intro h _; rw [popLoop]; omega
  | succ w ih =>
    intro hdw hall
    rw [popLoop]
    rcases Nat.lt_or_ge d (w + 1) with hlt | hge
    · rw [if_pos ⟨hlt, hall (w + 1) hlt (Nat.le_refl _)⟩]
      exact ih (by omega) fun j h1 h2 => hall j h1 (by omega)
    · rw [if_neg (fun hh => absurd hh.1 (by omega))]
      omega

theorem popLoopFindSep (o : List Char) (d i : Nat) (hdi : d ≤ i)
    (hsep : o.getD i 'a' = '/') :
    ∀ w, i ≤ w → (∀ j, i < j → j ≤ w → notSep (o.getD j 'a') = true) →
    popLoop o d w = i := by
  intro w
  induction w with
  | zero => intro h _; rw [popLoop]; omega
  | succ w ih =>
    intro hiw hall
    rw [popLoop]
    rcases Nat.lt_or_ge i (w + 1) with hlt | hge
    · rw [if_pos ⟨by omega, hall (w + 1) hlt (Nat.le_refl _)⟩]
      exact ih (by omega) fun j h1 h2 => hall j h1 (by omega)
    · have hiw1 : i = w + 1 := by omega
      rw [if_neg ?_]
      · omega
      · intro hh
        rw [← hiw1, hsep] at hh
        simp [notSep] at hh

theorem backtrackRender (segs : List (List Char)) (h : allGood segs) (hne : segs ≠ []) :
    backtrack ('/' :: renderSegs segs) 1 = '/' :: renderSegs segs.dropLast := by
  obtain ⟨init, last, rfl⟩ : ∃ init last, segs = init ++ [last] :=
    ⟨segs.dropLast, segs.getLast hne, (List.dropLast_append_getLast hne).symm⟩
  have hlast : goodSeg last := h last (by simp)
  have hlastne : last ≠ [] := hlast.1
  have hlastsep : ∀ c ∈ last, notSep c = true := hlast.2.1
  rw [List.dropLast_concat]
  cases init with
  | nil =>
    have hr : renderSegs ([] ++ [last]) = last := rfl
    rw [hr]
    have hlen : ('/' :: last).length - 1 = last.length := by simp
    have hpop : popLoop ('/' :: last) 1 (last.length) = 1 := by
      apply popLoopAllHigh
      · have := List.length_pos.mpr hlastne; omega
      · intro j h1 h2
        obtain ⟨k, rfl⟩ : ∃ k, j = k + 1 := ⟨j - 1, by omega⟩
        rw [List.getD_cons_succ]
        have hk : k < last.length := by omega
        rw [List.getD_eq_getElem last 'a' hk]
        exact hlastsep _ (List.getElem_mem hk)
    rw [backtrack, hlen, hpop]
    rfl
  | cons a init2 =>
    have hinitne : a :: init2 ≠ [] := by simp
    rw [renderSegsAppendSingle _ last hinitne]
    set L := renderSegs (a :: init2) with hL
    have hsplit : '/' :: (L ++ '/' :: last) = ('/' :: L) ++ '/' :: last := rfl
    have hlen : ('/' :: (L ++ '/' :: last)).length - 1 = (L.length + 1) + last.length := by
      simp; omega
    have hpop : popLoop ('/' :: (L ++ '/' :: last)) 1 ((L.length + 1) + last.length)
        = L.length + 1 := by
      apply popLoopFindSep
      · omega
      · rw [hsplit]
        have : ('/' :: L).length ≤ L.length + 1 := by simp
        rw [List.getD_append_right _ _ _ _ this]
        simp
      · omega
      · intro j h1 h2
        rw [hsplit]
        have hjlen : ('/' :: L).length ≤ j := by simp; omega
        rw [List.getD_append_right _ _ _ _ hjlen]
        obtain ⟨k, hk⟩ : ∃ k, j - ('/' :: L).length = k + 1 := by
          refine ⟨j - ('/' :: L).length - 1, ?_⟩
          simp at hjlen ⊢
          omega
        rw [hk, List.getD_cons_succ]
        have hkl : k < last.length := by
          simp at hk h2
          omega
        rw [List.getD_eq_getElem last 'a' hkl]
        exact hlastsep _ (List.getElem_mem hkl)
    rw [backtrack, hlen, hpop, hsplit]
    have : L.length + 1 = ('/' :: L).length := by simp
    rw [this, List.take_left]

theorem segProcessNilInp (fuel : Nat) (segs : List (List Char)) :
    segProcess fuel segs [] = segs := by
  cases fuel <;> rfl

theorem allGoodDropLast (segs : List (List Char)) (h : allGood segs) :
    allGood segs.dropLast :=
  fun s hs => h s ((List.dropLast_sublist segs).subset hs)

theorem allGoodAppendSeg (segs : List (List Char)) (s : List Char)
    (h : allGood segs) (hs : goodSeg s) : allGood (segs ++ [s]) := by
  intro x hx
  rcases List.mem_append.mp hx with h1 | h1
  · exact h x h1
  · rw [List.mem_singleton.mp h1]; exact hs

/-- The fueled `cleanLoop` run on a rooted path with the written output
"/" plus rendered good segments equals "/" plus the rendered output of the
segment-level mirror with the same fuel. -/
theorem cleanLoopRooted : ∀ fuel inp segs, allGood segs →
    cleanLoop fuel inp ('/' :: renderSegs segs) 1 true
      = '/' :: renderSegs (segProcess fuel segs inp) := by
  intro fuel
  induction fuel with
  | zero => intro inp segs _; rfl
  | succ fuel ih =>
    intro inp segs hgood
    cases inp with
    | nil => rfl
    | cons c rest =>
      have hlen1 : ('/' :: renderSegs segs).length = 1 + (renderSegs segs).length := by
        simp; omega
      by_cases h1 : c = '/'
      · rw [cleanLoop, segProcess, if_pos h1, if_pos h1]
        exact ih rest segs hgood
      · by_cases h2 : c = '.' ∧ atSegEnd rest
        · rw [cleanLoop, segProcess, if_neg h1, if_neg h1, if_pos h2, if_pos h2]
          exact ih rest segs hgood
        · by_cases h3 : c = '.' ∧ rest.head? = some '.' ∧ atSegEnd rest.tail
          · rw [cleanLoop, segProcess, if_neg h1, if_neg h1, if_neg h2, if_neg h2,
              if_pos h3, if_pos h3]
            by_cases hne : segs = []
            · subst hne
              rw [if_neg (by simp [renderSegs])]
              simp only [Bool.not_true, Bool.false_eq_true, if_false]
              have := ih rest.tail [] hgood
              simpa using this
            · have hrne : renderSegs segs ≠ [] := by
                rw [ne_eq, renderSegsEqNilIff segs hgood]; exact hne
              have hpos : 0 < (renderSegs segs).length := List.length_pos.mpr hrne
              rw [if_pos (by rw [hlen1]; omega)]
              rw [backtrackRender segs hgood hne]
              exact ih rest.tail segs.dropLast (allGoodDropLast segs hgood)
          · rw [cleanLoop, segProcess, if_neg h1, if_neg h1, if_neg h2, if_neg h2,
              if_neg h3, if_neg h3]
            have hseg : goodSeg (c :: rest.takeWhile notSep) := goodSegOfGuards c rest h1 h2 h3
            have hgood2 : allGood (segs ++ [c :: rest.takeWhile notSep]) :=
              allGoodAppendSeg segs _ hgood hseg
            by_cases hne : segs = []
            · subst hne
              rw [if_neg (by simp [renderSegs])]
              have := ih (rest.dropWhile notSep) [c :: rest.takeWhile notSep] hgood2
              simpa [renderSegs] using this
            · have hrne : renderSegs segs ≠ [] := by
                rw [ne_eq, renderSegsEqNilIff segs hgood]; exact hne
              have hpos : 0 < (renderSegs segs).length := List.length_pos.mpr hrne
              rw [if_pos (Or.inl ⟨rfl, by rw [hlen1]; omega⟩)]
              have hout : ('/' :: renderSegs segs) ++ ['/'] ++ c :: rest.takeWhile notSep
                  = '/' :: renderSegs (segs ++ [c :: rest.takeWhile notSep]) := by
                rw [renderSegsAppendSingle segs _ hne]
                simp
              rw [hout]
              exact ih (rest.dropWhile notSep) _ hgood2

theorem segProcessFuelEq : ∀ f1 f2 (segs : List (List Char)) inp,
    inp.length ≤ f1 → inp.length ≤ f2 →
    segProcess f1 segs inp = segProcess f2 segs inp := by
  intro f1
  induction f1 with
  | zero =>
    intro f2 segs inp h1 _
    rw [List.length_eq_zero.mp (Nat.le_zero.mp h1), segProcessNilInp, segProcessNilInp]
  | succ f1 ih =>
    intro f2 segs inp h1 h2
    cases inp with
    | nil => rw [segProcessNilInp, segProcessNilInp]
    | cons c rest =>
      obtain ⟨g2, rfl⟩ : ∃ g2, f2 = g2 + 1 := by
        cases f2 with
        | zero => simp at h2
        | succ g => exact ⟨g, rfl⟩
      simp only [List.length_cons] at h1 h2
      have hr1 : rest.length ≤ f1 := by omega
      have hr2 : rest.length ≤ g2 := by omega
      have ht1 : rest.tail.length ≤ f1 := le_trans (by cases rest <;> simp) hr1
      have ht2 : rest.tail.length ≤ g2 := le_trans (by cases rest <;> simp) hr2
      have hd1 : (rest.dropWhile notSep).length ≤ f1 := le_trans (lengthDropWhileLe _ _) hr1
      have hd2 : (rest.dropWhile notSep).length ≤ g2 := le_trans (lengthDropWhileLe _ _) hr2
      rw [segProcess, segProcess]
      by_cases h1c : c = '/'
      · rw [if_pos h1c, if_pos h1c]; exact ih g2 segs rest hr1 hr2
      · rw [if_neg h1c, if_neg h1c]
        by_cases h2c : c = '.' ∧ atSegEnd rest
        · rw [if_pos h2c, if_pos h2c]; exact ih g2 segs rest hr1 hr2
        · rw [if_neg h2c, if_neg h2c]
          by_cases h3c : c = '.' ∧ rest.head? = some '.' ∧ atSegEnd rest.tail
          · rw [if_pos h3c, if_pos h3c]; exact ih g2 segs.dropLast rest.tail ht1 ht2
          · rw [if_neg h3c, if_neg h3c]
            exact ih g2 _ (rest.dropWhile notSep) hd1 hd2

theorem segRunEqOfFuel (fuel : Nat) (segs : List (List Char)) (inp : List Char)
    (h : inp.length ≤ fuel) : segProcess fuel segs inp = segRun segs inp :=
  segProcessFuelEq fuel inp.length segs inp h (Nat.le_refl _)

theorem segProcessGood : ∀ fuel (segs : List (List Char)) inp, allGood segs →
    allGood (segProcess fuel segs inp) := by
  intro fuel
  induction fuel with
  | zero => intro segs inp h; exact h
  | succ fuel ih =>
    intro segs inp h
    cases inp with
    | nil => exact h
    | cons c rest =>
      rw [segProcess]
      by_cases h1 : c = '/'
      · rw [if_pos h1]; exact ih segs rest h
      · rw [if_neg h1]
        by_cases h2 : c = '.' ∧ atSegEnd rest
        · rw [if_pos h2]; exact ih segs rest h
        · rw [if_neg h2]
          by_cases h3 : c = '.' ∧ rest.head? = some '.' ∧ atSegEnd rest.tail
          · rw [if_pos h3]; exact ih segs.dropLast rest.tail (allGoodDropLast segs h)
          · rw [if_neg h3]
            exact ih _ _ (allGoodAppendSeg segs _ h (goodSegOfGuards c rest h1 h2 h3))

theorem segRunGood (segs : List (List Char)) (inp : List Char) (h : allGood segs) :
    allGood (segRun segs inp) := segProcessGood _ _ _ h

/-- One-step unfolding of `segRun` with the fuel renormalised. -/
theorem segRunStep (c : Char) (rest : List Char) (segs : List (List Char)) :
    segRun segs (c :: rest) =
      if c = '/' then segRun segs rest
      else if c = '.' ∧ atSegEnd rest then segRun segs rest
      else if c = '.' ∧ rest.head? = some '.' ∧ atSegEnd rest.tail then
        segRun segs.dropLast rest.tail
      else segRun (segs ++ [c :: rest.takeWhile notSep]) (rest.dropWhile notSep) := by
  have ht : rest.tail.length ≤ rest.length := by cases rest <;> simp
  have hd : (rest.dropWhile notSep).length ≤ rest.length := lengthDropWhileLe _ _
  rw [segRun, List.length_cons, segProcess]
  by_cases h1 : c = '/'
  · rw [if_pos h1, if_pos h1]; exact segRunEqOfFuel _ _ _ (Nat.le_refl _)
  · rw [if_neg h1, if_neg h1]
    by_cases h2 : c = '.' ∧ atSegEnd rest
    · rw [if_pos h2, if_pos h2]; exact segRunEqOfFuel _ _ _ (Nat.le_refl _)
    · rw [if_neg h2, if_neg h2]
      by_cases h3 : c = '.' ∧ rest.head? = some '.' ∧ atSegEnd rest.tail
      · rw [if_pos h3, if_pos h3]; exact segRunEqOfFuel _ _ _ ht
      · rw [if_neg h3, if_neg h3]; exact segRunEqOfFuel _ _ _ hd

/-- Clean of a rooted path, segment-level characterisation. -/
theorem cleanCharsRooted (cs : List Char) :
    cleanChars ('/' :: cs) = '/' :: renderSegs (segRun [] cs) := by
  rw [cleanChars]
  simp only [if_pos rfl]
  have h0 : ('/' : Char) :: renderSegs [] = ['/'] := rfl
  rw [show (['/'] : List Char) = '/' :: renderSegs [] from rfl]
  rw [cleanLoopRooted cs.length cs [] (fun s hs => absurd hs (List.not_mem_nil s))]
  rw [if_neg (by simp)]
  rfl

theorem segRunSepStep (y : List Char) (segs : List (List Char)) :
    segRun segs ('/' :: y) = segRun segs y := by
  rw [segRunStep, if_pos rfl]

/-- Feeding an emittable path element followed by a separator back through the
segment processor pushes exactly that element. -/
theorem segRunSegStep (s y : List Char) (segs : List (List Char)) (hs : goodSeg s) :
    segRun segs (s ++ '/' :: y) = segRun (segs ++ [s]) y := by
  obtain ⟨a, s2, rfl⟩ : ∃ a s2, s = a :: s2 := by
    cases s with
    | nil => exact absurd rfl hs.1
    | cons a s2 => exact ⟨a, s2, rfl⟩
  have hsep := hs.2.1
  have ha : notSep a = true := hsep a (List.mem_cons_self a s2)
  have hs2 : ∀ c ∈ s2, notSep c = true := fun c hc => hsep c (List.mem_cons_of_mem a hc)
  have h1 : ¬ a = '/' := by simpa [notSep, bne_iff_ne] using ha
  have h2 : ¬ (a = '.' ∧ atSegEnd (s2 ++ '/' :: y)) := by
    rintro ⟨rfl, hend⟩
    cases s2 with
    | nil => exact hs.2.2.1 rfl
    | cons d s3 =>
      have hd : notSep d = true := hs2 d (List.mem_cons_self d s3)
      simp only [List.cons_append, atSegEnd] at hend
      simp [notSep, beq_iff_eq] at hd hend
      exact hd hend
  have h3 : ¬ (a = '.' ∧ (s2 ++ '/' :: y).head? = some '.' ∧ atSegEnd (s2 ++ '/' :: y).tail) := by
    rintro ⟨rfl, hhd, hend⟩
    cases s2 with
    | nil => simp at hhd
    | cons d s3 =>
      simp only [List.cons_append, List.head?_cons, Option.some.injEq] at hhd
      subst hhd
      cases s3 with
      | nil => exact hs.2.2.2 rfl
      | cons e s4 =>
        have he : notSep e = true := hs2 _ (by simp)
        simp only [List.cons_append, List.tail_cons, atSegEnd] at hend
        simp [notSep, beq_iff_eq] at he hend
        exact he hend
  rw [List.cons_append, segRunStep, if_neg h1, if_neg h2, if_neg h3]
  rw [takeWhileAllSep s2 y hs2, dropWhileAllSep s2 y hs2]
  exact segRunSepStep y _

/-- Feeding an emittable path element at the very end of the input pushes it. -/
theorem segRunSegEnd (s : List Char) (segs : List (List Char)) (hs : goodSeg s) :
    segRun segs s = segs ++ [s] := by
  obtain ⟨a, s2, rfl⟩ : ∃ a s2, s = a :: s2 := by
    cases s with
    | nil => exact absurd rfl hs.1
    | cons a s2 => exact ⟨a, s2, rfl⟩
  have hsep := hs.2.1
  have ha : notSep a = true := hsep a (List.mem_cons_self a s2)
  have hs2 : ∀ c ∈ s2, notSep c = true := fun c hc => hsep c (List.mem_cons_of_mem a hc)
  have h1 : ¬ a = '/' := by simpa [notSep, bne_iff_ne] using ha
  have h2 : ¬ (a = '.' ∧ atSegEnd s2) := by
    rintro ⟨rfl, hend⟩
    cases s2 with
    | nil => exact hs.2.2.1 rfl
    | cons d s3 =>
      have hd : notSep d = true := hs2 d (List.mem_cons_self d s3)
      simp only [atSegEnd] at hend
      simp [notSep, beq_iff_eq] at hd hend
      exact hd hend
  have h3 : ¬ (a = '.' ∧ s2.head? = some '.' ∧ atSegEnd s2.tail) := by
    rintro ⟨rfl, hhd, hend⟩
    cases s2 with
    | nil => simp at hhd
    | cons d s3 =>
      simp only [List.head?_cons, Option.some.injEq] at hhd
      subst hhd
      cases s3 with
      | nil => exact hs.2.2.2 rfl
      | cons e s4 =>
        have he : notSep e = true := hs2 _ (by simp)
        simp only [List.tail_cons, atSegEnd] at hend
        simp [notSep, beq_iff_eq] at he hend
        exact he hend
  rw [segRunStep, if_neg h1, if_neg h2, if_neg h3]
  rw [takeWhileAllEnd s2 hs2, dropWhileAllEnd s2 hs2]
  rw [segRun, segProcessNilInp]

/-- Processing a rendered stack of good segments followed by "/" and more
input pushes the whole stack. -/
theorem segRunRendered : ∀ (R : List (List Char)), allGood R →
    ∀ (segs : List (List Char)) (rest : List Char),
    segRun segs (renderSegs R ++ '/' :: rest) = segRun (segs ++ R) rest := by
  intro R
  induction R with
  | nil =>
    intro _ segs rest
    rw [show renderSegs [] ++ '/' :: rest = '/' :: rest from rfl, segRunSepStep]
    simp
  | cons s R2 ih =>
    intro hgood segs rest
    have hs : goodSeg s := hgood s (List.mem_cons_self s R2)
    have hR2 : allGood R2 := fun x hx => hgood x (List.mem_cons_of_mem s hx)
    cases R2 with
    | nil =>
      rw [show renderSegs [s] = s from rfl, segRunSegStep s rest segs hs]
    | cons b R3 =>
      have hrw : renderSegs (s :: b :: R3) ++ '/' :: rest
          = s ++ '/' :: (renderSegs (b :: R3) ++ '/' :: rest) := by
        simp [renderSegs]
      rw [hrw, segRunSegStep _ _ segs hs, ih hR2 (segs ++ [s]) rest]
      simp

/-- Processing exactly a rendered stack of good segments pushes the stack. -/
theorem segRunRenderEnd : ∀ (Q : List (List Char)), allGood Q →
    ∀ (segs : List (List Char)), segRun segs (renderSegs Q) = segs ++ Q := by
  intro Q
  induction Q with
  | nil => intro _ segs; rw [show renderSegs [] = ([] : List Char) from rfl,
      segRun, segProcessNilInp]; simp
  | cons s Q2 ih =>
    intro hgood segs
    have hs : goodSeg s := hgood s (List.mem_cons_self s Q2)
    have hQ2 : allGood Q2 := fun x hx => hgood x (List.mem_cons_of_mem s hx)
    cases Q2 with
    | nil => rw [show renderSegs [s] = s from rfl, segRunSegEnd s segs hs]
    | cons b Q3 =>
      have hrw : renderSegs (s :: b :: Q3) = s ++ '/' :: renderSegs (b :: Q3) := by
        simp [renderSegs]
      rw [hrw, segRunSegStep _ _ segs hs, ih hQ2 (segs ++ [s])]
      simp

theorem hasPrefixCsAppend (p rest : List Char) : hasPrefixCs (p ++ rest) p = true := by
  induction p with
  | nil => cases rest <;> rfl
  | cons c p2 ih => simp [hasPrefixCs, ih]

theorem stringNeNilOfCons (s : String) (c : Char) (cs : List Char)
    (h : s.data = c :: cs) : s ≠ "" := by
  intro he
  rw [he] at h
  exact absurd h (by simp [String.data])

/-- Joining a rooted clean path onto a rooted clean root concatenates the
segment stacks. -/
theorem join2Rooted (R Q : List (List Char)) (hR : allGood R) (hQ : allGood Q) :
    join2 (String.mk ('/' :: renderSegs R)) (String.mk ('/' :: renderSegs Q))
      = String.mk ('/' :: renderSegs (R ++ Q)) := by
  rw [join2, if_pos (stringNeNilOfCons _ '/' _ rfl)]
  have hdata : (String.mk ('/' :: renderSegs R) ++ "/" ++ String.mk ('/' :: renderSegs Q)).data
      = '/' :: (renderSegs R ++ '/' :: ('/' :: renderSegs Q)) := by
    show ('/' :: renderSegs R) ++ ['/'] ++ ('/' :: renderSegs Q)
        = '/' :: (renderSegs R ++ '/' :: ('/' :: renderSegs Q))
    simp
  rw [clean, hdata, cleanCharsRooted]
  rw [segRunRendered R hR [] ('/' :: renderSegs Q)]
  rw [show (([] : List (List Char)) ++ R) = R from by simp]
  rw [segRunSepStep, segRunRenderEnd Q hQ R]

/-- Full characterisation of securePath for an absolute root: the request is
always accepted and the target is the root stack extended by the stack of the
cleaned rooted request. -/
theorem securePathChar (rootDir p : String) (cs : List Char)
    (hroot : rootDir.data = '/' :: cs) :
    allGood (segRun [] cs) ∧ allGood (segRun [] p.data) ∧
      clean rootDir = String.mk ('/' :: renderSegs (segRun [] cs)) ∧
      clean ("/" ++ p) = String.mk ('/' :: renderSegs (segRun [] p.data)) ∧
      securePath rootDir p
        = Except.ok (String.mk ('/' :: renderSegs (segRun [] cs ++ segRun [] p.data))) := by
  have hRg : allGood (segRun [] cs) := segRunGood [] cs (fun s hs => absurd hs (List.not_mem_nil s))
  have hQg : allGood (segRun [] p.data) :=
    segRunGood [] p.data (fun s hs => absurd hs (List.not_mem_nil s))
  have hcleanRoot : clean rootDir = String.mk ('/' :: renderSegs (segRun [] cs)) := by
    rw [clean, hroot, cleanCharsRooted]
  have hcleanReq : clean ("/" ++ p) = String.mk ('/' :: renderSegs (segRun [] p.data)) := by
    rw [clean, show ("/" ++ p).data = '/' :: p.data from rfl, cleanCharsRooted]
  refine ⟨hRg, hQg, hcleanRoot, hcleanReq, ?_⟩
  rw [securePath, hcleanRoot, hcleanReq, join2Rooted _ _ hRg hQg]
  have hpre : hasPrefixStr (String.mk ('/' :: renderSegs (segRun [] cs ++ segRun [] p.data)))
      (String.mk ('/' :: renderSegs (segRun [] cs))) = true := by
    rw [hasPrefixStr]
    show hasPrefixCs ('/' :: renderSegs (segRun [] cs ++ segRun [] p.data))
        ('/' :: renderSegs (segRun [] cs)) = true
    by_cases hQ : segRun [] p.data = []
    · rw [hQ, List.append_nil]
      have := hasPrefixCsAppend ('/' :: renderSegs (segRun [] cs)) []
      simpa using this
    · by_cases hR : segRun [] cs = []
      · rw [hR, List.nil_append]
        rw [show renderSegs [] = ([] : List Char) from rfl]
        have := hasPrefixCsAppend ['/'] (renderSegs (segRun [] p.data))
        simpa using this
      · rw [renderSegsAppend _ _ hR hQ]
        have := hasPrefixCsAppend ('/' :: renderSegs (segRun [] cs))
          ('/' :: renderSegs (segRun [] p.data))
        simpa using this
  rw [if_pos hpre]

theorem hasPrefixRootedAppend (R Q : List (List Char)) (hQ : allGood Q) :
    hasPrefixCs ('/' :: renderSegs (R ++ Q)) ('/' :: renderSegs R) = true := by
  by_cases hQn : Q = []
  · subst hQn
    rw [List.append_nil]
    have := hasPrefixCsAppend ('/' :: renderSegs R) []
    simpa using this
  · by_cases hR : R = []
    · subst hR
      rw [List.nil_append, show renderSegs [] = ([] : List Char) from rfl]
      have := hasPrefixCsAppend ['/'] (renderSegs Q)
      simpa using this
    · rw [renderSegsAppend _ _ hR hQn]
      have := hasPrefixCsAppend ('/' :: renderSegs R) ('/' :: renderSegs Q)
      simpa using this

theorem renderSegsAppendEqIff (R Q : List (List Char)) (hQ : allGood Q) :
    renderSegs (R ++ Q) = renderSegs R ↔ Q = [] := by
  constructor
  · intro h
    by_contra hQne
    by_cases hR : R = []
    · subst hR
      rw [List.nil_append, show renderSegs [] = ([] : List Char) from rfl] at h
      exact hQne ((renderSegsEqNilIff Q hQ).mp h)
    · rw [renderSegsAppend R Q hR hQne] at h
      have := congrArg List.length h
      simp at this
  · intro h; subst h; rw [List.append_nil]

theorem segRunDotDot (b : List Char) (segs : List (List Char)) :
    segRun segs ('.' :: '.' :: '/' :: b) = segRun segs.dropLast ('/' :: b) := by
  rw [segRunStep, if_neg (by decide), if_neg ?g2, if_pos ⟨rfl, rfl, rfl⟩]
  · rfl
  case g2 => rintro ⟨_, h⟩; simp [atSegEnd] at h

theorem segRunRootCollapse (b : List Char) :
    segRun [] ('/' :: '.' :: '.' :: '/' :: b) = segRun [] b := by
  rw [segRunSepStep, segRunDotDot]
  rw [show (([] : List (List Char)).dropLast) = [] from rfl, segRunSepStep]

theorem segRunDotDotAfter (s b : List Char) (segs : List (List Char)) :
    segRun (segs ++ [s]) ('/' :: '.' :: '.' :: '/' :: b) = segRun segs ('/' :: b) := by
  rw [segRunSepStep, segRunDotDot, List.dropLast_concat]

/-- Segment-level core of the `a/../b` collapse: a separator-free fragment
followed by `/../` cancels out at the root. -/
theorem segRunCollapse (a b : List Char) (ha : ∀ c ∈ a, notSep c = true) :
    segRun [] (a ++ '/' :: '.' :: '.' :: '/' :: b) = segRun [] b := by
  cases a with
  | nil => simpa using segRunRootCollapse b
  | cons c a2 =>
    have hc : notSep c = true := ha c (List.mem_cons_self c a2)
    have hcs : ¬ c = '/' := by simpa [notSep, bne_iff_ne] using hc
    have ha2 : ∀ d ∈ a2, notSep d = true := fun d hd => ha d (List.mem_cons_of_mem c hd)
    rw [List.cons_append]
    by_cases h2 : c = '.' ∧ atSegEnd (a2 ++ '/' :: '.' :: '.' :: '/' :: b)
    · have ha2nil : a2 = [] := by
        cases a2 with
        | nil => rfl
        | cons d a3 =>
          have hd : notSep d = true := ha2 d (List.mem_cons_self d a3)
          have hend := h2.2
          simp only [List.cons_append, atSegEnd] at hend
          simp [notSep, beq_iff_eq] at hd hend
          exact absurd hend hd
      subst ha2nil
      rw [segRunStep, if_neg hcs, if_pos h2, List.nil_append]
      exact segRunRootCollapse b
    · by_cases h3 : c = '.' ∧ (a2 ++ '/' :: '.' :: '.' :: '/' :: b).head? = some '.' ∧
          atSegEnd (a2 ++ '/' :: '.' :: '.' :: '/' :: b).tail
      · have ha2dot : a2 = ['.'] := by
          cases a2 with
          | nil =>
            have := h3.2.1
            simp at this
          | cons d a3 =>
            have hhd := h3.2.1
            simp only [List.cons_append, List.head?_cons, Option.some.injEq] at hhd
            subst hhd
            cases a3 with
            | nil => rfl
            | cons e a4 =>
              have he : notSep e = true := ha2 e (by simp)
              have hend := h3.2.2
              simp only [List.cons_append, List.tail_cons, atSegEnd] at hend
              simp [notSep, beq_iff_eq] at he hend
              exact absurd hend he
        subst ha2dot
        rw [segRunStep, if_neg hcs, if_neg h2, if_pos h3]
        rw [show (('.' :: []) ++ '/' :: '.' :: '.' :: '/' :: b).tail
            = '/' :: '.' :: '.' :: '/' :: b from rfl]
        rw [show (([] : List (List Char)).dropLast) = [] from rfl]
        exact segRunRootCollapse b
      · rw [segRunStep, if_neg hcs, if_neg h2, if_neg h3]
        rw [takeWhileAllSep a2 _ ha2, dropWhileAllSep a2 _ ha2]
        have := segRunDotDotAfter (c :: a2) b []
        rw [List.nil_append] at this
        rw [List.nil_append, this, segRunSepStep]

/-- C2: securePath never fails for any requested path.  The requested path is
prefixed with a separator and lexically cleaned before being joined onto the
absolute root, so the joined result always has the root as a prefix and the
Denied branch of securePath is unreachable (the root directory is absolute,
as main guarantees by replacing rootDir with filepath.Abs(rootDir)). -/
theorem c2_securePath_never_denied (rootDir p : String)
    (hroot : rootDir.data.head? = some '/') :
    ∃ t, securePath rootDir p = Except.ok t := by
  obtain ⟨cs, hcs⟩ : ∃ cs, rootDir.data = '/' :: cs := by
    cases hd : rootDir.data with
    | nil => rw [hd] at hroot; exact absurd hroot (by simp)
    | cons c cs =>
      rw [hd] at hroot
      simp only [List.head?_cons, Option.some.injEq] at hroot
      exact ⟨cs, by rw [hroot]⟩
  exact ⟨_, (securePathChar rootDir p cs hcs).2.2.2.2⟩

/-- Witness for C2 at a concrete root and the traversal input named by the
specification. -/
theorem c2_witness : ∃ t, securePath "/srv/files" "../../../etc/passwd" = Except.ok t :=
  c2_securePath_never_denied "/srv/files" "../../../etc/passwd" rfl

/-- C1 counterexample: resolving "../../../etc/passwd" does not fail (it is
lexically neutralised to a path inside the root), and resolving "" returns
the root itself, which is not a strict descendant of the root. -/
theorem c1_counterexample :
    securePath "/srv" "../../../etc/passwd" = Except.ok "/srv/etc/passwd" ∧
    securePath "/srv" "" = Except.ok "/srv" := ⟨rfl, rfl⟩

/-- C1 amended: for an absolute, already-clean root (as established by main),
securePath never fails; it always returns a path having the root as a string
prefix, and the result equals the root itself exactly when the cleaned rooted
request is "/" (for example for the requests "" and ".."); traversal
sequences are neutralised rather than denied. -/
theorem c1_resolve_contained (rootDir p : String)
    (hroot : rootDir.data.head? = some '/') (hclean : clean rootDir = rootDir) :
    ∃ t, securePath rootDir p = Except.ok t ∧ hasPrefixStr t rootDir = true ∧
      (t = rootDir ↔ clean ("/" ++ p) = "/") := by
  obtain ⟨cs, hcs⟩ : ∃ cs, rootDir.data = '/' :: cs := by
    cases hd : rootDir.data with
    | nil => rw [hd] at hroot; exact absurd hroot (by simp)
    | cons c cs =>
      rw [hd] at hroot
      simp only [List.head?_cons, Option.some.injEq] at hroot
      exact ⟨cs, by rw [hroot]⟩
  obtain ⟨hRg, hQg, hcleanRoot, hcleanReq, heq⟩ := securePathChar rootDir p cs hcs
  have hrd : rootDir.data = '/' :: renderSegs (segRun [] cs) := by
    conv_lhs => rw [← hclean]
    rw [hcleanRoot]
  refine ⟨_, heq, ?_, ?_⟩
  · rw [hasPrefixStr, hrd]
    exact hasPrefixRootedAppend _ _ hQg
  · constructor
    · intro ht
      have hdata := congrArg String.data ht
      rw [hrd] at hdata
      have h2 : renderSegs (segRun [] cs ++ segRun [] p.data) = renderSegs (segRun [] cs) :=
        List.cons.inj hdata |>.2
      have hQnil : segRun [] p.data = [] := (renderSegsAppendEqIff _ _ hQg).mp h2
      rw [hcleanReq, hQnil]
      rfl
    · intro hp
      rw [hcleanReq] at hp
      have hdata := congrArg String.data hp
      have h2 : renderSegs (segRun [] p.data) = [] := List.cons.inj hdata |>.2
      have hQnil : segRun [] p.data = [] := (renderSegsEqNilIff _ hQg).mp h2
      rw [hQnil, List.append_nil, ← hrd]

/-- Witness for C1 amended at a concrete root and request. -/
theorem c1_witness :
    ∃ t, securePath "/srv" "a" = Except.ok t ∧ hasPrefixStr t "/srv" = true ∧
      (t = "/srv" ↔ clean ("/" ++ "a") = "/") :=
  c1_resolve_contained "/srv" "a" rfl rfl

/-- C7 counterexample: the collapse law fails for a fragment containing a
separator: resolve("x/y/../z") is root/x/z but resolve("z") is root/z. -/
theorem c7_counterexample :
    securePath "/srv" ("x/y" ++ "/../" ++ "z") ≠ securePath "/srv" "z" := by
  intro h
  have h1 : securePath "/srv" ("x/y" ++ "/../" ++ "z") = Except.ok "/srv/x/z" := rfl
  have h2 : securePath "/srv" "z" = Except.ok "/srv/z" := rfl
  rw [h1, h2] at h
  exact absurd (Except.ok.inj h) (by decide)

/-- C7 amended: resolution is invariant under lexical collapse of a
separator-free fragment: for every fragment a without a path separator and
every b, resolve(a ++ "/../" ++ b) equals resolve(b) (cleaning of "." and
".." happens before the prefix check). -/
theorem c7_lexical_collapse (rootDir a b : String) (ha : a.data.all notSep = true) :
    securePath rootDir (a ++ "/../" ++ b) = securePath rootDir b := by
  have ha2 : ∀ c ∈ a.data, notSep c = true := fun c hc => List.all_eq_true.mp ha c hc
  have hdata : ("/" ++ (a ++ "/../" ++ b)).data
      = '/' :: (a.data ++ '/' :: '.' :: '.' :: '/' :: b.data) := by
    show '/' :: (a.data ++ ['/', '.', '.', '/'] ++ b.data) = _
    simp
  have hcl : clean ("/" ++ (a ++ "/../" ++ b)) = clean ("/" ++ b) := by
    rw [clean, clean, hdata, show ("/" ++ b).data = '/' :: b.data from rfl,
      cleanCharsRooted, cleanCharsRooted, segRunCollapse a.data b.data ha2]
  rw [securePath, securePath, hcl]

/-- Witness for C7 amended. -/
theorem c7_witness :
    securePath "/srv" ("docs" ++ "/../" ++ "notes.txt") = securePath "/srv" "notes.txt" :=
  c7_lexical_collapse "/srv" "docs" "notes.txt" (by decide)

theorem mapGetSet (m : List (String × Int)) (k : String) (v : Int) :
    mapGet (mapSet m k v) k = some v := by
  induction m with
  | nil => simp [mapSet, mapGet]
  | cons kv rest ih =>
    obtain ⟨k2, v2⟩ := kv
    by_cases h : k2 = k
    · simp [mapSet, h, mapGet]
    · simp [mapSet, h, mapGet, ih]

/-- C6: for every client, with the governor not yet tracking it, a first call
is admitted, a second call less than one second after the first is rejected,
and a third call at least one second after the first is admitted again. -/
theorem c6_rate_window (ip : String) (m : List (String × Int)) (t0 t1 t2 : Int)
    (hfresh : mapGet m ip = none)
    (hwithin : t1 - t0 < rateInterval)
    (hafter : rateInterval ≤ t2 - t0) :
    (isRateLimited t0 m ip).1 = false ∧
    (isRateLimited t1 (isRateLimited t0 m ip).2 ip).1 = true ∧
    (isRateLimited t2 (isRateLimited t1 (isRateLimited t0 m ip).2 ip).2 ip).1 = false := by
  have h0 : isRateLimited t0 m ip = (false, mapSet m ip t0) := by
    simp [isRateLimited, hfresh]
  have hget : mapGet (mapSet m ip t0) ip = some t0 := mapGetSet m ip t0
  have h1 : isRateLimited t1 (mapSet m ip t0) ip = (true, mapSet m ip t0) := by
    simp [isRateLimited, hget, hwithin]
  have h2 : (isRateLimited t2 (mapSet m ip t0) ip).1 = false := by
    simp only [isRateLimited, hget]
    rw [if_neg (by omega)]
  rw [h0]
  exact ⟨rfl, by rw [h1], by rw [h1]; exact h2⟩

/-- Witness for C6: calls at 0 ms, 500 ms and 1000 ms. -/
theorem c6_witness :
    (isRateLimited 0 [] "1.2.3.4").1 = false ∧
    (isRateLimited 500000000 (isRateLimited 0 [] "1.2.3.4").2 "1.2.3.4").1 = true ∧
    (isRateLimited 1000000000
      (isRateLimited 500000000 (isRateLimited 0 [] "1.2.3.4").2 "1.2.3.4").2 "1.2.3.4").1
      = false :=
  c6_rate_window "1.2.3.4" [] 0 500000000 1000000000 rfl (by decide) (by decide)

/-- C10: a rejected call leaves the tracker map unchanged, so any number of
rejected retries within the interval leave the stored timestamp alone, and a
call one full interval after the last admitted one is admitted no matter how
many rejected attempts happened in between. -/
theorem c10_reject_preserves (ip : String) (m : List (String × Int)) (t0 : Int)
    (ts : List Int) (t2 : Int)
    (hlast : mapGet m ip = some t0)
    (hts : ∀ t ∈ ts, t - t0 < rateInterval)
    (hafter : rateInterval ≤ t2 - t0) :
    (∀ t ∈ ts, isRateLimited t m ip = (true, m)) ∧
    attemptAll ts m ip = m ∧
    (isRateLimited t2 (attemptAll ts m ip) ip).1 = false := by
  have hone : ∀ t, t - t0 < rateInterval → isRateLimited t m ip = (true, m) := by
    intro t ht
    simp [isRateLimited, hlast, ht]
  have hfold : ∀ l : List Int, (∀ t ∈ l, t - t0 < rateInterval) → attemptAll l m ip = m := by
    intro l
    induction l with
    | nil => intro _; rfl
    | cons t l ih =>
      intro hl
      have hstep : (isRateLimited t m ip).2 = m := by
        rw [hone t (hl t (List.mem_cons_self t l))]
      rw [attemptAll, List.foldl_cons, hstep]
      exact ih fun x hx => hl x (List.mem_cons_of_mem t hx)
  refine ⟨fun t ht => hone t (hts t ht), hfold ts hts, ?_⟩
  rw [hfold ts hts]
  simp only [isRateLimited, hlast]
  rw [if_neg (by omega)]

/-- Witness for C10: two retries 300 ms and 600 ms after an admitted call at
time 0, then admission at 1000 ms. -/
theorem c10_witness :
    (∀ t ∈ [(300000000 : Int), 600000000],
      isRateLimited t [("7.7.7.7", (0 : Int))] "7.7.7.7" = (true, [("7.7.7.7", 0)])) ∧
    attemptAll [300000000, 600000000] [("7.7.7.7", 0)] "7.7.7.7" = [("7.7.7.7", 0)] ∧
    (isRateLimited 1000000000
      (attemptAll [300000000, 600000000] [("7.7.7.7", 0)] "7.7.7.7") "7.7.7.7").1 = false :=
  c10_reject_preserves "7.7.7.7" [("7.7.7.7", 0)] 0 [300000000, 600000000] 1000000000
    rfl (by decide) (by decide)

/-- C3 counterexample: in the v1.0 uploadHandler's success trace the password
check comes before the body byte ceiling is installed, contradicting the
claimed fixed order for the upload pipeline. -/
theorem c3_counterexample :
    (uploadTraceV10 false true true true true).indexOf UStep.passwordCheck
      < (uploadTraceV10 false true true true true).indexOf UStep.bodyLimit := by
  decide

/-- C3 amended: the v1.1 uploadHandler performs, in order, the rate check,
the body byte ceiling, the multipart decode, the password check, the path
resolution and the disk write, and under every combination of step outcomes
its password check is only ever evaluated after the multipart parse; the v1.0
uploadHandler instead evaluates the password check (after the rate and method
checks) before the byte ceiling is imposed. -/
theorem c3_upload_order :
    uploadTraceV11 false true true true true
      = [UStep.rateCheck, UStep.bodyLimit, UStep.parseMultipart, UStep.passwordCheck,
         UStep.formFile, UStep.resolvePath, UStep.createDest, UStep.diskWrite] ∧
    (∀ rl parseOk pwOk fileOk createOk : Bool,
      UStep.passwordCheck ∈ uploadTraceV11 rl parseOk pwOk fileOk createOk →
      (uploadTraceV11 rl parseOk pwOk fileOk createOk).indexOf UStep.parseMultipart
        < (uploadTraceV11 rl parseOk pwOk fileOk createOk).indexOf UStep.passwordCheck) ∧
    ((uploadTraceV10 false true true true true).indexOf UStep.passwordCheck
      < (uploadTraceV10 false true true true true).indexOf UStep.bodyLimit) := by
  refine ⟨rfl, ?_, by decide⟩
  decide

/-- Witness for C3 amended: the parse-before-password order on the success
path of the v1.1 handler. -/
theorem c3_witness :
    UStep.passwordCheck ∈ uploadTraceV11 false true true true true ∧
    (uploadTraceV11 false true true true true).indexOf UStep.parseMultipart
      < (uploadTraceV11 false true true true true).indexOf UStep.passwordCheck :=
  ⟨by decide, c3_upload_order.2.1 false true true true true (by decide)⟩

/-- C4 counterexample: a body one byte over a 1 MB ceiling is rejected by the
v1.1 handler with status 400, not with a distinct 413, though indeed with no
write to the destination. -/
theorem c4_counterexample :
    statusCode (uploadRespV11 1 1048577 false false true true true).1 = 400 ∧
    statusCode (uploadRespV11 1 1048577 false false true true true).1 ≠ 413 ∧
    (uploadRespV11 1 1048577 false false true true true).2 = false :=
  ⟨rfl, by decide, rfl⟩

/-- C4 amended: in the v1.1 handler, every upload whose body exceeds the
configured maxUploadMB megabyte ceiling is rejected before any bytes are
persisted to the destination path, with HTTP 400 (the handler does not emit a
distinct 413; oversize and malformed bodies share the same response) unless
the rate limit already rejected it with 429. -/
theorem c4_oversize_rejected (maxUploadMB bodySize : Nat)
    (rl malformed pwOk fileOk createOk : Bool)
    (hover : maxUploadMB * 1048576 < bodySize) :
    (uploadRespV11 maxUploadMB bodySize rl malformed pwOk fileOk createOk).2 = false ∧
    (rl = false →
      statusCode (uploadRespV11 maxUploadMB bodySize rl malformed pwOk fileOk createOk).1
        = 400) := by
  cases rl
  · constructor
    · simp [uploadRespV11, hover]
    · intro _
      simp [uploadRespV11, hover, statusCode]
  · exact ⟨by simp [uploadRespV11], by intro h; exact absurd h (by simp)⟩

/-- Witness for C4 amended at a concrete oversize upload. -/
theorem c4_witness :
    (uploadRespV11 2 2097153 false false true true true).2 = false ∧
    (false = false →
      statusCode (uploadRespV11 2 2097153 false false true true true).1 = 400) :=
  c4_oversize_rejected 2 2097153 false false true true true (by decide)

/-- C5 counterexample: with the delete feature disabled, the v1.1 handler
responds with the redirect and the v1.0 handler with an empty 200 response;
neither short-circuits to Forbidden (no file is removed, though). -/
theorem c5_counterexample :
    (deleteV11 "pw" "/srv" false "pw" "f.txt" ["/srv/f.txt"]).1 = DeleteResp.redirect ∧
    (deleteV10 "pw" "/srv" false "pw" "f.txt" ["/srv/f.txt"]).1 = DeleteResp.emptyOk ∧
    (deleteV11 "pw" "/srv" false "pw" "f.txt" ["/srv/f.txt"]).1 ≠ DeleteResp.forbidden ∧
    (deleteV10 "pw" "/srv" false "pw" "f.txt" ["/srv/f.txt"]).1 ≠ DeleteResp.forbidden :=
  ⟨rfl, rfl, by decide, by decide⟩

/-- C5 amended: with the delete feature disabled both handlers short-circuit
without removing any file — the v1.1 handler answers with the redirect and
the v1.0 handler with an empty response, not with Forbidden — even with a
correct password; with the feature enabled and the password accepted, the
path resolved by securePath is absent afterwards; with a wrong password no
file is removed. -/
theorem c5_delete_behavior (configuredPw rootDir : String) (enableDelete : Bool)
    (suppliedPw reqPath : String) (fs : List String) :
    (enableDelete = false →
      deleteV11 configuredPw rootDir enableDelete suppliedPw reqPath fs
        = (DeleteResp.redirect, fs) ∧
      deleteV10 configuredPw rootDir enableDelete suppliedPw reqPath fs
        = (DeleteResp.emptyOk, fs)) ∧
    (checkPassword configuredPw suppliedPw = false →
      (deleteV11 configuredPw rootDir enableDelete suppliedPw reqPath fs).2 = fs ∧
      (deleteV10 configuredPw rootDir enableDelete suppliedPw reqPath fs).2 = fs) ∧
    (∀ t, enableDelete = true → checkPassword configuredPw suppliedPw = true →
      securePath rootDir reqPath = Except.ok t →
      t ∉ (deleteV11 configuredPw rootDir enableDelete suppliedPw reqPath fs).2 ∧
      t ∉ (deleteV10 configuredPw rootDir enableDelete suppliedPw reqPath fs).2) := by
  refine ⟨?_, ?_, ?_⟩
  · rintro rfl
    constructor
    · rw [deleteV11, if_neg (fun hc => by simp at hc)]
    · rw [deleteV10, if_pos (by simp)]
  · intro hpw
    constructor
    · rw [deleteV11, if_neg (fun hc => by rw [hpw] at hc; simp at hc)]
    · cases enableDelete
      · rw [deleteV10, if_pos (by simp)]
      · rw [deleteV10, if_neg (by simp), if_pos (by simp [hpw])]
  · intro t hena hpw hsec
    subst hena
    have hmem : t ∉ removeFile t fs := by
      intro hm
      have := List.mem_filter.mp hm
      simp at this
    constructor
    · rw [deleteV11, if_pos ⟨rfl, hpw⟩, hsec]
      exact hmem
    · rw [deleteV10, if_neg (by simp), if_neg (by simp [hpw]), hsec]
      exact hmem

/-- Witness for C5 amended: deleting an existing file with the feature
enabled and the correct password leaves the resolved path absent. -/
theorem c5_witness :
    "/srv/f.txt" ∉ (deleteV11 "pw" "/srv" true "pw" "f.txt" ["/srv/f.txt", "/srv/g.txt"]).2 ∧
    "/srv/f.txt" ∉ (deleteV10 "pw" "/srv" true "pw" "f.txt" ["/srv/f.txt", "/srv/g.txt"]).2 :=
  (c5_delete_behavior "pw" "/srv" true "pw" "f.txt" ["/srv/f.txt", "/srv/g.txt"]).2.2
    "/srv/f.txt" rfl (by decide) rfl

theorem insertByModPerm (x : FileInfo) (l : List FileInfo) :
    (insertByMod x l).Perm (x :: l) := by
  induction l with
  | nil => exact List.Perm.refl _
  | cons y ys ih =>
    rw [insertByMod]
    by_cases h : modAfter y x
    · rw [if_pos h]
      exact (List.Perm.cons y ih).trans (List.Perm.swap x y ys)
    · rw [if_neg h]

theorem sortByModPerm (l : List FileInfo) : (sortByMod l).Perm l := by
  induction l with
  | nil => exact List.Perm.refl _
  | cons x xs ih =>
    rw [sortByMod, List.foldr_cons]
    exact (insertByModPerm x _).trans (List.Perm.cons x ih)

theorem insertByModSorted (x : FileInfo) (l : List FileInfo)
    (h : l.Pairwise (fun a b => b.modTime ≤ a.modTime)) :
    (insertByMod x l).Pairwise (fun a b => b.modTime ≤ a.modTime) := by
  induction l with
  | nil => simp [insertByMod]
  | cons y ys ih =>
    rw [List.pairwise_cons] at h
    rw [insertByMod]
    by_cases hc : x.modTime < y.modTime
    · rw [if_pos (by simp [modAfter]; exact hc)]
      rw [List.pairwise_cons]
      constructor
      · intro z hz
        have hz2 := (insertByModPerm x ys).mem_iff.mp hz
        rcases List.mem_cons.mp hz2 with rfl | hz3
        · omega
        · exact h.1 z hz3
      · exact ih h.2
    · rw [if_neg (by simp [modAfter]; omega)]
      rw [List.pairwise_cons]
      constructor
      · intro z hz
        rcases List.mem_cons.mp hz with rfl | hz3
        · omega
        · have := h.1 z hz3
          omega
      · exact List.pairwise_cons.mpr ⟨h.1, h.2⟩

theorem sortByModSorted (l : List FileInfo) :
    (sortByMod l).Pairwise (fun a b => b.modTime ≤ a.modTime) := by
  induction l with
  | nil => simp [sortByMod]
  | cons x xs ih =>
    rw [sortByMod, List.foldr_cons]
    exact insertByModSorted x _ ih

/-- C8: for every state of the root directory, the listing contains exactly
the FileInfo records of the non-directory entries (subdirectories are
skipped), and it is ordered by non-increasing modification time, most recent
first. -/
theorem c8_listing (entries : List DirEntry) :
    (renderIndex entries).Perm ((entries.filter (fun e => !e.isDir)).map entryToFileInfo) ∧
    (renderIndex entries).Pairwise (fun a b => b.modTime ≤ a.modTime) :=
  ⟨sortByModPerm _, sortByModSorted _⟩

/-- C9 counterexample: humanSize has no TB suffix — two terabytes are
rendered as "2048.0 GB", not with a TB suffix. -/
theorem c9_counterexample : humanSize (2 * 1024 ^ 4) = "2048.0 GB" := by
  have hc : ((2 * 1024 ^ 4 : Int) : ℚ) = 2199023255552 := by norm_num
  have hloop : humanLoop 3 ((2 * 1024 ^ 4 : Int) : ℚ) 0 = (2048, 3) := by
    rw [hc, humanLoop, if_pos (by norm_num), humanLoop, if_pos (by norm_num),
        humanLoop, if_pos (by norm_num), humanLoop]
    simp only [Prod.mk.injEq]
    exact ⟨by norm_num, trivial⟩
  rw [humanSize, hloop]
  have h10 : (2048 : ℚ) * 10 = 20480 := by norm_num
  have hfl : ((20480 : ℚ)).floor = 20480 := rfl
  have hr : roundHalfEven (20480 : ℚ) = 20480 := by
    rw [roundHalfEven, hfl]
    rw [if_pos (by norm_num)]
  rw [show fmtOneDec (2048, 3).1 = fmtOneDec (2048 : ℚ) from rfl, fmtOneDec, h10, hr]
  rfl

/-- C9 amended: the human-readable size is computed by repeated division by
1024 across the unit suffixes B/KB/MB/GB (there is no TB suffix), rounded to
one decimal place; in particular every size of at least 1024^3 bytes —
including multi-terabyte sizes — is rendered with the GB suffix. -/
theorem c9_gb_ceiling (n : Int) (h : (1024 : Int) ^ 3 ≤ n) :
    humanLoop 3 (n : ℚ) 0 = ((n : ℚ) / 1024 / 1024 / 1024, 3) ∧
    humanSize n = fmtOneDec ((n : ℚ) / 1024 / 1024 / 1024) ++ " GB" := by
  have hq : ((1024 : ℚ)) ^ 3 ≤ (n : ℚ) := by exact_mod_cast h
  have hs1 : (1024 : ℚ) ≤ (n : ℚ) := by nlinarith
  have hs2 : (1024 : ℚ) ≤ (n : ℚ) / 1024 := by
    rw [le_div_iff₀ (by norm_num : (0:ℚ) < 1024)]
    nlinarith
  have hs3 : (1024 : ℚ) ≤ (n : ℚ) / 1024 / 1024 := by
    rw [div_div, le_div_iff₀ (by norm_num : (0:ℚ) < 1024 * 1024)]
    nlinarith
  have hloop : humanLoop 3 (n : ℚ) 0 = ((n : ℚ) / 1024 / 1024 / 1024, 3) := by
    rw [humanLoop, if_pos ⟨hs1, by norm_num⟩,
      humanLoop, if_pos ⟨hs2, by norm_num⟩,
      humanLoop, if_pos ⟨hs3, by norm_num⟩,
      humanLoop]
  refine ⟨hloop, ?_⟩
  rw [humanSize, hloop]
  exact congrArg String.mk (List.append_assoc _ [' '] ['G', 'B'])

/-- Witness for C9 amended at two terabytes. -/
theorem c9_witness :
    humanLoop 3 ((2199023255552 : Int) : ℚ) 0
      = (((2199023255552 : Int) : ℚ) / 1024 / 1024 / 1024, 3) ∧
    humanSize 2199023255552
      = fmtOneDec (((2199023255552 : Int) : ℚ) / 1024 / 1024 / 1024) ++ " GB" :=
  c9_gb_ceiling 2199023255552 (by norm_num)

end Cerbero

